import Mathlib

/-!
# Verification of the spc2midi analysis core

Shallow embedding of the analysis pipeline of the spc2midi application
(`src/lib.rs`, `src/source_estimation.rs`, `src/types.rs`) and proofs about it.

Machine integers are modelled as `Nat` with explicit `% 2^w` where the Rust
code performs fixed-width arithmetic (u8, u16, u32, usize); `f32` values are
modelled as `ℚ`, with the transcendental primitives (`log10`, `log2`, `ln`,
`exp`, `sqrt`) taken as function parameters, so every definition stays
computable and the proved properties hold for any behaviour of those
primitives.  Code that can panic is embedded as `Except Unit`-valued.
-/

namespace Spc2Midi

/-! ## Driver tick accounting (`App::analyze_sources` / `App::bpm_estimation`)

The analysis loops accumulate the cycle counts returned by `execute_step()`
(a `u8`, added into a `u32` accumulator) and, once per step, fire one
`clock_tick_64k_hz()` when the accumulator has reached
`CLOCK_TICK_CYCLE_64KHZ`, subtracting that constant and keeping the
remainder.  `tickStep` is one iteration of that loop, acting on the pair
(cycle accumulator, number of ticks fired so far). -/

/-- `const CLOCK_TICK_CYCLE_64KHZ: u32 = 16;` from `src/lib.rs`. -/
def CLOCK_TICK_CYCLE_64KHZ : Nat := 16

/-- One iteration of the analysis driver loop: add the step's cycle count
(a `u8`, hence `% 256`; the accumulator is a `u32`, hence `% 2^32`), then
fire at most one 64kHz tick when the accumulator reached the threshold. -/
def tickStep (st : Nat × Nat) (cycles : Nat) : Nat × Nat :=
  let c := (st.1 + cycles % 256) % 2 ^ 32
  if CLOCK_TICK_CYCLE_64KHZ ≤ c then (c - CLOCK_TICK_CYCLE_64KHZ, st.2 + 1) else (c, st.2)

/-- Run the driver loop over a whole sequence of `execute_step()` cycle
counts, starting from a zero accumulator and zero ticks. -/
def tickDriver (cycles : List Nat) : Nat × Nat := cycles.foldl tickStep (0, 0)

/-! ## Key-on observation map (`App::analyze_sources`, src/lib.rs 1056-1081) -/

/-- What `analyze_sources` reads from the DSP on one pass of its loop: the
key-on register `KON`, the sample-directory register `DIR`, and the
per-voice source numbers `VxSRCN` (all `u8` reads, modelled mod 256 at use
sites). -/
structure KonObservation where
  keyon : Nat
  dir : Nat
  srcn : Nat → Nat

/-- A map from source numbers to directory addresses, as built by the
`BTreeMap::insert` calls of `analyze_sources`. -/
def SrcMap := Nat → Option Nat

/-- `BTreeMap::insert`: later inserts overwrite earlier ones. -/
def insertFn {α : Type} (m : Nat → Option α) (k : Nat) (v : α) : Nat → Option α :=
  fun q => if q = k then some v else m q

/-- `(brr_dir_base_address + 4 * (sample_source as u16)) as usize` where
`brr_dir_base_address = (DIR as u16) << 8`: 16-bit arithmetic, so the sum
wraps mod 2^16 (release-build semantics of `u16` overflow). -/
def dir_address (dir srcn : Nat) : Nat := ((dir % 256) * 256 + 4 * (srcn % 256)) % 65536

/-- Whether voice `ch`'s key-on bit is set in the observed `KON` byte:
`(keyon >> ch) & 1 != 0`. -/
def konBit (o : KonObservation) (ch : Nat) : Prop := ((o.keyon % 256) >>> ch) % 2 = 1

instance (o : KonObservation) (ch : Nat) : Decidable (konBit o ch) := by
  unfold konBit; infer_instance

/-- The body of one loop pass of `analyze_sources`: if the key-on register is
non-zero, for every voice whose key-on bit is set, insert
`sample_source -> dir_address` into the map (voices scanned in order 0..8). -/
def processKonObservation (m : SrcMap) (o : KonObservation) : SrcMap :=
  if o.keyon % 256 ≠ 0 then
    (List.range 8).foldl
      (fun m ch =>
        if konBit o ch then
          insertFn m (o.srcn ch % 256) (dir_address o.dir (o.srcn ch))
        else m)
      m
  else m

/-- The discovered-source map after a whole run of the analysis loop,
starting from the freshly created empty `start_address_map`. -/
def analyzeKonMap (obs : List KonObservation) : SrcMap :=
  obs.foldl processKonObservation (fun _ => none)

/-! ### Helper lemmas about the per-observation channel fold -/

/-- If no channel in `l` both has its key-on bit set and carries source
number `s`, the channel fold leaves the map unchanged at `s`. -/
lemma konFold_miss (o : KonObservation) (s : Nat) :
    ∀ (l : List Nat) (m : SrcMap),
      (∀ ch ∈ l, ¬(konBit o ch ∧ o.srcn ch % 256 = s)) →
      (l.foldl
        (fun m ch =>
          if konBit o ch then
            insertFn m (o.srcn ch % 256) (dir_address o.dir (o.srcn ch))
          else m) m) s = m s := by
  intro l
  induction l with
  | nil => intro m _; rfl
  | cons c t ih =>
    intro m h
    have hc := h c (List.mem_cons_self c t)
    have ht : ∀ ch ∈ t, ¬(konBit o ch ∧ o.srcn ch % 256 = s) :=
      fun ch hch => h ch (List.mem_cons_of_mem c hch)
    simp only [List.foldl_cons]
    rw [ih _ ht]
    by_cases hb : konBit o c
    · have hne : o.srcn c % 256 ≠ s := fun he => hc ⟨hb, he⟩
      simp only [if_pos hb]
      unfold insertFn
      rw [if_neg (fun he => hne he.symm)]
    · simp [hb]

/-- If some channel in `l` has its key-on bit set and carries source number
`s`, the channel fold records `dir_address dir s` at `s` (the address is the
same for every such channel because `DIR` is read once per pass). -/
lemma konFold_hit (o : KonObservation) (s : Nat) :
    ∀ (l : List Nat) (m : SrcMap),
      (∃ ch ∈ l, konBit o ch ∧ o.srcn ch % 256 = s) →
      (l.foldl
        (fun m ch =>
          if konBit o ch then
            insertFn m (o.srcn ch % 256) (dir_address o.dir (o.srcn ch))
          else m) m) s = some (dir_address o.dir s) := by
  intro l
  induction l with
  | nil => rintro m ⟨ch, h, _⟩; exact absurd h (List.not_mem_nil ch)
  | cons c t ih =>
    intro m hex
    simp only [List.foldl_cons]
    by_cases hext : ∃ ch ∈ t, konBit o ch ∧ o.srcn ch % 256 = s
    · exact ih _ hext
    · obtain ⟨ch, hmem, hP⟩ := hex
      have hch : ch = c := by
        rcases List.mem_cons.1 hmem with h | h
        · exact h
        · exact absurd ⟨ch, h, hP⟩ hext
      subst hch
      have ht : ∀ ch ∈ t, ¬(konBit o ch ∧ o.srcn ch % 256 = s) := by
        intro ch' hch' hP'
        exact hext ⟨ch', hch', hP'⟩
      rw [konFold_miss o s t _ ht]
      have hb := hP.1
      have hkey := hP.2
      simp only [if_pos hb]
      unfold insertFn
      rw [if_pos hkey.symm]
      rw [← hkey]
      unfold dir_address
      congr 2
      omega

/-- A set key-on bit forces the `keyon != 0` guard of the loop body. -/
lemma konBit_keyon_ne_zero (o : KonObservation) (ch : Nat) (h : konBit o ch) :
    o.keyon % 256 ≠ 0 := by
  intro h0
  unfold konBit at h
  rw [h0] at h
  simp at h

/-- Processing one observation records the source observed on channel `ch`. -/
lemma processKonObservation_records (m : SrcMap) (o : KonObservation) (ch : Nat)
    (hch : ch < 8) (hbit : konBit o ch) :
    processKonObservation m o (o.srcn ch % 256)
      = some (dir_address o.dir (o.srcn ch % 256)) := by
  unfold processKonObservation
  rw [if_pos (konBit_keyon_ne_zero o ch hbit)]
  refine konFold_hit o (o.srcn ch % 256) (List.range 8) m ?_
  exact ⟨ch, List.mem_range.2 hch, hbit, rfl⟩

/-! ### Claim C1 -/

/-- C1, counterexample: the claim states the recorded address is
`(DIR_register << 8) + 4*source_number` in plain arithmetic, but the code
computes it in `u16` arithmetic, which wraps mod 2^16.  With `DIR = 0xFF`
and source number `0x40` observed at key-on, the code records address `0`,
not `(0xFF << 8) + 4*0x40 = 65536`. -/
theorem analyze_sources_address_wraps :
    analyzeKonMap [⟨1, 255, fun _ => 64⟩] 64 = some 0 ∧
      255 * 2 ^ 8 + 4 * 64 = 65536 ∧ (some 0 : Option Nat) ≠ some 65536 := by
  refine ⟨?_, by norm_num, by simp⟩
  decide

/-- C1 (amended): during a `SourceAnalyzer` run, for every voice whose
key-on bit is observed set, the analyzer records
`source_number -> ((DIR_register << 8) + 4*source_number) mod 2^16` in the
discovered-source map, and a later observation of the same source number
overwrites the previously recorded address (last-seen wins): after any
earlier history `obs`, an observation `o` with voice `ch`'s key-on bit set
leaves the map at `o.srcn ch` holding exactly the address computed from
`o`'s `DIR` value. -/
theorem analyze_sources_records_last_keyon
    (obs : List KonObservation) (o : KonObservation) (ch : Nat)
    (hch : ch < 8) (hbit : konBit o ch) :
    analyzeKonMap (obs ++ [o]) (o.srcn ch % 256)
      = some (dir_address o.dir (o.srcn ch % 256)) := by
  unfold analyzeKonMap
  rw [List.foldl_append]
  simp only [List.foldl_cons, List.foldl_nil]
  exact processKonObservation_records
    (List.foldl processKonObservation (fun _ => none) obs) o ch hch hbit

/-- C1, witness: a concrete run of the amended theorem.  After a history
containing an earlier observation of source 5 (with `DIR = 1`), a new
observation with `DIR = 0x10` and key-on on voice 1 overwrites the entry
for source 5 with `0x1000 + 4*5 = 0x1014`. -/
theorem analyze_sources_records_last_keyon_witness :
    analyzeKonMap ([⟨2, 1, fun _ => 5⟩] ++ [⟨2, 16, fun _ => 5⟩])
        ((fun _ => 5 : Nat → Nat) 1 % 256)
      = some (dir_address 16 ((fun _ => 5 : Nat → Nat) 1 % 256)) :=
  analyze_sources_records_last_keyon [⟨2, 1, fun _ => 5⟩] ⟨2, 16, fun _ => 5⟩ 1
    (by decide) (by decide)

/-! ### Claim C3 -/

/-- C3, counterexample: the claim asserts the tick count equals
`floor(total_cycles/16)` regardless of how cycles are distributed across
steps, but the loop fires at most one tick per step (`if`, not `while`):
a single step reporting 32 cycles fires 1 tick, not `32/16 = 2`. -/
theorem tick_count_single_batch_undercounts :
    (tickDriver [32]).2 = 1 ∧ ([32] : List Nat).sum / 16 = 2 ∧ (1 : Nat) ≠ 2 := by
  refine ⟨?_, by norm_num, by norm_num⟩
  decide

/-- Invariant of the driver loop: as long as every step contributes at most
`CLOCK_TICK_CYCLE_64KHZ` cycles, the accumulator stays below the threshold
and `16 * ticks + accumulator` equals the total cycles seen. -/
lemma tickDriver_invariant :
    ∀ (cycles : List Nat) (acc t : Nat), acc < 16 → (∀ c ∈ cycles, c ≤ 16) →
      (cycles.foldl tickStep (acc, t)).1 < 16 ∧
        16 * (cycles.foldl tickStep (acc, t)).2 + (cycles.foldl tickStep (acc, t)).1
          = 16 * t + acc + cycles.sum := by
  intro cycles
  induction cycles with
  | nil => intro acc t hacc _; simpa using hacc
  | cons c cs ih =>
    intro acc t hacc hle
    have hc : c ≤ 16 := hle c (List.mem_cons_self c cs)
    have hcs : ∀ x ∈ cs, x ≤ 16 := fun x hx => hle x (List.mem_cons_of_mem c hx)
    simp only [List.foldl_cons, List.sum_cons]
    have hcmod : c % 256 = c := Nat.mod_eq_of_lt (by omega)
    have hsmall : (acc + c % 256) % 2 ^ 32 = acc + c := by
      rw [hcmod]; exact Nat.mod_eq_of_lt (by omega)
    have hstep : tickStep (acc, t) c
        = if 16 ≤ acc + c then (acc + c - 16, t + 1) else (acc + c, t) := by
      simp only [tickStep, CLOCK_TICK_CYCLE_64KHZ, hsmall]
    rw [hstep]
    by_cases h16 : 16 ≤ acc + c
    · rw [if_pos h16]
      have := ih (acc + c - 16) (t + 1) (by omega) hcs
      exact ⟨this.1, by omega⟩
    · rw [if_neg h16]
      have := ih (acc + c) t (by omega) hcs
      exact ⟨this.1, by omega⟩

/-- C3 (amended): under the driver protocol, provided every individual
step's cycle count is at most `CLOCK_TICK_CYCLE_64KHZ` (= 16, true of every
SPC700 instruction), the total number of `clock_tick_64k_hz()` calls after
processing any sequence of steps equals `floor(total_cycles/16)`, regardless
of how the cycles are distributed across the individual steps. -/
theorem tick_count_eq_total_cycles_div
    (cycles : List Nat) (h : ∀ c ∈ cycles, c ≤ CLOCK_TICK_CYCLE_64KHZ) :
    (tickDriver cycles).2 = cycles.sum / 16 := by
  have hinv := tickDriver_invariant cycles 0 0 (by norm_num) h
  unfold tickDriver
  omega

/-- C3, witness: three steps of 10, 10 and 12 cycles yield
`floor(32/16) = 2` ticks. -/
theorem tick_count_eq_total_cycles_div_witness :
    (tickDriver [10, 10, 12]).2 = ([10, 10, 12] : List Nat).sum / 16 :=
  tick_count_eq_total_cycles_div [10, 10, 12] (by decide)

/-! ## Waveform directory entries and decoded-signal bookkeeping
(`App::analyze_sources`, src/lib.rs 1089-1114)

`ram` models the 64KiB RAM image as a total function; values are bytes, so
every read is taken mod 256. -/

/-- Modelled from the spec: `make_u16_from_u8` lives in the external
`spc700` crate (not under src/); per the spec a directory entry is
"a 4-byte directory entry (2-byte start address, 2-byte loop address)", the
two bytes assembling a 16-bit address little-endian as on the SPC700. -/
def make_u16_from_u8 (b0 b1 : Nat) : Nat := b0 % 256 + 256 * (b1 % 256)

/-- The start address held by the directory entry at `dirAddress`:
`make_u16_from_u8(&ram[dir_address..dir_address+2]) as usize`. -/
def dirEntryStart (ram : Nat → Nat) (dirAddress : Nat) : Nat :=
  make_u16_from_u8 (ram dirAddress) (ram (dirAddress + 1))

/-- The loop address held by the directory entry at `dirAddress`:
`make_u16_from_u8(&ram[dir_address+2..dir_address+4]) as usize`. -/
def dirEntryLoop (ram : Nat → Nat) (dirAddress : Nat) : Nat :=
  make_u16_from_u8 (ram (dirAddress + 2)) (ram (dirAddress + 3))

/-- `loop_start_sample: ((loop_address - start_address) * 16) / 9` from the
`SourceInformation` construction in `analyze_sources`.  The subtraction and
multiplication are `usize` arithmetic, which wraps mod 2^64 (release-build
semantics; a debug build panics outright when `loop_address <
start_address`). -/
def sourceLoopStartSample (ram : Nat → Nat) (dirAddress : Nat) : Nat :=
  let start_address := dirEntryStart ram dirAddress
  let loop_address := dirEntryLoop ram dirAddress
  ((loop_address + 2 ^ 64 - start_address) % 2 ^ 64 * 16 % 2 ^ 64) / 9

/-- Modelled from the spec: the BRR decoder (`spc700::decoder::Decoder`, not
under src/) consumes 9-byte blocks ("1 header byte ... + 8 packed 4-bit
nibbles -> 16 samples") starting at the directory entry's start address and
"sets an externally visible `end` flag when the final block completes"; the
header's end flag is its lowest bit.  `brrBlockCount ram addr fuel` counts
the blocks up to and including the first end-flagged one, reading headers
9 bytes apart (RAM addresses wrap mod 2^16), giving up after `fuel` blocks
(the analysis decode loop does not terminate when no end flag is ever
reached). -/
def brrBlockCount (ram : Nat → Nat) : Nat → Nat → Option Nat
  | _, 0 => none
  | addr, fuel + 1 =>
    if ram (addr % 65536) % 256 % 2 = 1 then some 1
    else (brrBlockCount ram (addr + 9) fuel).map (· + 1)

/-- Modelled from the spec: the decode loop of `analyze_sources` pushes one
sample per `process` call at native 1:1 pitch and stops right after the
end-flagged block completes, so the decoded signal holds 16 samples per
consumed block. -/
def brrSignalLength (ram : Nat → Nat) (startAddress fuel : Nat) : Option Nat :=
  (brrBlockCount ram startAddress fuel).map (16 * ·)

/-! ### Claim C2 -/

/-- RAM for the spec's concrete scenario: the directory entry at `0x0400`
holds start address `0x0500` and loop address `0x0520` (little-endian
bytes), and the fourth BRR block (header at `0x051B`) carries the end
flag. -/
def scenarioRam : Nat → Nat := fun a =>
  if a = 0x400 then 0x00
  else if a = 0x401 then 0x05
  else if a = 0x402 then 0x20
  else if a = 0x403 then 0x05
  else if a = 0x51B then 0x01
  else 0

/-- C2: with DSP `DIR = 0x04` and a key-on observed for source 0, the
analyzer records address `0x0400` for source 0, and the produced
`SourceInformation` has
`loop_start_sample = ((0x0520 - 0x0500) * 16) / 9` for the directory entry
`{start: 0x0500, loop: 0x0520}` at `0x0400`. -/
theorem analyze_sources_concrete_scenario :
    analyzeKonMap [⟨1, 4, fun _ => 0⟩] 0 = some 0x0400 ∧
      sourceLoopStartSample scenarioRam 0x0400 = ((0x0520 - 0x0500) * 16) / 9 := by
  constructor
  · decide
  · decide

/-! ### Claim C8 -/

/-- RAM refuting the `loop_start_sample <= signal.len()` invariant: the
directory entry at `0x0400` holds start `0x0500` and loop `0x0600`, but the
very first BRR block (header at `0x0500`) carries the end flag, so only one
block (16 samples) is decoded. -/
def malformedRam : Nat → Nat := fun a =>
  if a = 0x400 then 0x00
  else if a = 0x401 then 0x05
  else if a = 0x402 then 0x00
  else if a = 0x403 then 0x06
  else if a = 0x500 then 0x01
  else 0

/-- C8, counterexample: for the directory entry `{start: 0x0500, loop:
0x0600}` whose sample data ends after one block, the decoded signal has 16
samples while `loop_start_sample = ((0x0600 - 0x0500) * 16) / 9 = 455`, so
`loop_start_sample <= signal.len()` fails.  Nothing in `analyze_sources`
ties the loop address to the decoded length. -/
theorem loop_start_sample_exceeds_signal_length :
    brrSignalLength malformedRam (dirEntryStart malformedRam 0x400) 16 = some 16 ∧
      sourceLoopStartSample malformedRam 0x400 = 455 ∧ ¬(455 ≤ 16) := by
  refine ⟨?_, ?_, by norm_num⟩
  · decide
  · decide

/-- Both addresses stored in a directory entry are 16-bit values. -/
lemma make_u16_from_u8_lt (b0 b1 : Nat) : make_u16_from_u8 b0 b1 < 65536 := by
  unfold make_u16_from_u8
  omega

/-- C8 (amended): `loop_start_sample <= signal.len()` holds for every
well-formed directory entry, i.e. whenever `start_address <= loop_address`
and the loop address lies within the decoded block data
(`loop_address - start_address <= 9 * block_count`); for malformed entries
the bound can fail, and `loop_address < start_address` underflows the
`usize` subtraction. -/
theorem loop_start_sample_le_signal_length
    (ram : Nat → Nat) (dirAddress fuel len : Nat)
    (hlen : brrSignalLength ram (dirEntryStart ram dirAddress) fuel = some len)
    (hle : dirEntryStart ram dirAddress ≤ dirEntryLoop ram dirAddress)
    (hin : dirEntryLoop ram dirAddress - dirEntryStart ram dirAddress ≤ 9 * (len / 16)) :
    sourceLoopStartSample ram dirAddress ≤ len := by
  unfold brrSignalLength at hlen
  obtain ⟨n, _, hn⟩ := Option.map_eq_some'.1 hlen
  subst hn
  have h16 : 16 * n / 16 = n := by omega
  rw [h16] at hin
  have hstart := make_u16_from_u8_lt (ram dirAddress) (ram (dirAddress + 1))
  have hloop := make_u16_from_u8_lt (ram (dirAddress + 2)) (ram (dirAddress + 3))
  unfold sourceLoopStartSample
  unfold dirEntryStart dirEntryLoop at *
  set s := make_u16_from_u8 (ram dirAddress) (ram (dirAddress + 1)) with hs
  set l := make_u16_from_u8 (ram (dirAddress + 2)) (ram (dirAddress + 3)) with hl
  have h1 : (l + 2 ^ 64 - s) % 2 ^ 64 = l - s := by
    have : l + 2 ^ 64 - s = (l - s) + 2 ^ 64 := by omega
    rw [this, Nat.add_mod_right]
    exact Nat.mod_eq_of_lt (by omega)
  show (l + 2 ^ 64 - s) % 2 ^ 64 * 16 % 2 ^ 64 / 9 ≤ 16 * n
  rw [h1]
  have h2 : (l - s) * 16 % 2 ^ 64 = (l - s) * 16 := Nat.mod_eq_of_lt (by omega)
  rw [h2]
  calc (l - s) * 16 / 9 ≤ 9 * n * 16 / 9 :=
        Nat.div_le_div_right (Nat.mul_le_mul_right 16 hin)
    _ = 16 * n := by omega

/-- C8, witness: the scenario RAM's directory entry is well-formed (loop
offset `0x20 = 32 <= 9 * 4` with four decoded blocks), and indeed
`loop_start_sample = 56 <= 64 = signal.len()`. -/
theorem loop_start_sample_le_signal_length_witness :
    sourceLoopStartSample scenarioRam 0x400 ≤ 64 :=
  loop_start_sample_le_signal_length scenarioRam 0x400 16 64
    (by decide) (by decide) (by decide)

/-! ## Source estimation (`src/source_estimation.rs`)

`f32` samples and spectrum bins are modelled as `ℚ`; the transcendental
`f32` primitives are taken as function parameters. -/

/-- `SourceInformation` from `src/types.rs` (the decoded signal, its power
spectrum, and the address/loop bookkeeping). -/
structure SourceInformation where
  signal : List ℚ
  power_spectrum : List ℚ
  start_address : Nat
  end_address : Nat
  loop_start_sample : Nat

/-- The near-zero threshold `1e-8` (the exact binary32 value of the literal
differs negligibly from 1/10^8; no claim depends on it). -/
def NEAR_ZERO_THRESHOLD : ℚ := 1 / 100000000

/-- The first `while` of `detect_nonzero_erea`: count leading samples with
`|x| < 1e-8` (stops at the first loud sample, or at the end). -/
def countLeadingNearZero : List ℚ → Nat
  | [] => 0
  | x :: xs => if |x| < NEAR_ZERO_THRESHOLD then countLeadingNearZero xs + 1 else 0

/-- The second `while` of `detect_nonzero_erea`: starting from index
`signal.len() - 1`, walk left while the sample is near zero, stopping at
index 0. -/
def scanBackNearZero (signal : List ℚ) : Nat → Nat
  | 0 => 0
  | e + 1 => if |signal.getD (e + 1) 0| < NEAR_ZERO_THRESHOLD then scanBackNearZero signal e
             else e + 1

/-- `detect_nonzero_erea` from `src/source_estimation.rs`.  On an empty
signal the Rust code panics: `signal.len() - 1` underflows (debug build), or
wraps to `usize::MAX` and the subsequent `signal[end]` indexes out of
bounds (release build); this is embedded as `Except.error`. -/
def detect_nonzero_erea (signal : List ℚ) : Except Unit (Nat × Nat) :=
  if signal.length = 0 then Except.error ()
  else Except.ok (countLeadingNearZero signal, scanBackNearZero signal (signal.length - 1))

/-- The trimming step of `compute_power_spectrum`: slice `signal[start..end]`
when `start < end`, keep the whole signal otherwise. -/
def compute_power_spectrum_trim (signal : List ℚ) : Except Unit (List ℚ) :=
  match detect_nonzero_erea signal with
  | Except.error e => Except.error e
  | Except.ok (s, e) => Except.ok (if s < e then (signal.drop s).take (e - s) else signal)

/-! ### Claim C4 -/

/-- C4: on a zero-length signal the spectral pipeline does not return a
fallback — `detect_nonzero_erea` (and with it `compute_power_spectrum`)
panics, embedded here as `Except.error`.  (`estimate_bpm` has the analogous
fragility: `peak_lags[0]` indexes an empty vector when no in-range
autocorrelation lag reaches the threshold, as §9 of the spec records.) -/
theorem compute_power_spectrum_empty_input_errors :
    compute_power_spectrum_trim [] = Except.error () ∧
      detect_nonzero_erea [] = Except.error () := by
  constructor <;> rfl

/-! ### `detect_drum` (src/source_estimation.rs 37-124) -/

/-- `detect_drum`, parametrised by the `f32` primitives `log10`, `ln`,
`exp` and `sqrt` it uses.  The structure mirrors the Rust function:
early-out `false` on an empty signal or spectrum, then the one-shot check,
the first/last-eighth power ratio, the spectral flatness measure, and the
centroid/bandwidth test. -/
def detect_drum (log10 ln exp sqrt : ℚ → ℚ) (source_info : SourceInformation) : Bool :=
  let NUM_DIVISIONS : Nat := 8
  let signal := source_info.signal
  let power_spec := source_info.power_spectrum
  let nsmpls := signal.length
  let nspecs := power_spec.length
  if nsmpls = 0 ∨ nspecs = 0 then false
  else
    let one_shot := source_info.loop_start_sample = 0 ∨ source_info.loop_start_sample = nsmpls
    let div_num_samples := nsmpls / NUM_DIVISIONS
    let first_power := ((signal.take div_num_samples).map (fun x => x * x)).sum
    let last_power := ((signal.drop (nsmpls - div_num_samples)).map (fun x => x * x)).sum
    let power_ratio : ℚ :=
      if first_power > 0 ∧ last_power > 0 then 10 * log10 (first_power / last_power)
      else if first_power > 0 then 120 else -120
    let sum_power := power_spec.sum
    let density := power_spec.map (fun p => p / sum_power)
    let sum_log := (power_spec.map ln).sum
    let geo_mean := exp (sum_log / (nspecs : ℚ))
    let mean := sum_power / (nspecs : ℚ)
    let sfm := 10 * log10 (geo_mean / mean)
    let centroid := (density.enum.map
      (fun ip => ip.2 * ((ip.1 : ℚ) * 32000) / (2 * (nspecs : ℚ)))).sum
    let deviation := (List.range nspecs).map
      (fun i => |(i : ℚ) * 32000 / (2 * (nspecs : ℚ)) - centroid|)
    let bandwidth := sqrt ((density.enum.map
      (fun ip => ip.2 * deviation.getD ip.1 0 * deviation.getD ip.1 0)).sum)
    if one_shot then true
    else if power_ratio ≥ 24 then true
    else if sfm ≥ -10 then true
    else if centroid ≥ 8000 ∧ bandwidth ≥ 8000 then true
    else false

/-! ### Claim C6 -/

/-- C6, counterexample: the claim asserts `detect_drum` returns `true`
whenever `loop_start_sample = signal.len()` regardless of the signal's and
spectrum's contents, but the function returns `false` outright when the
signal or spectrum is empty — and the empty signal has
`loop_start_sample = 0 = signal.len()`. -/
theorem detect_drum_empty_signal_not_drum :
    (⟨[], [], 0, 0, 0⟩ : SourceInformation).loop_start_sample
        = (⟨[], [], 0, 0, 0⟩ : SourceInformation).signal.length ∧
      detect_drum (fun _ => 0) (fun _ => 0) (fun _ => 0) (fun _ => 0)
        ⟨[], [], 0, 0, 0⟩ = false := by
  constructor
  · rfl
  · rfl

/-- C6 (amended): for every `SourceInformation` with a non-empty signal and
a non-empty power spectrum whose `loop_start_sample` equals the signal
length, `detect_drum` returns `true` regardless of the signal's and
spectrum's contents (and for any behaviour of the `f32` primitives). -/
theorem detect_drum_of_loop_at_end
    (log10 ln exp sqrt : ℚ → ℚ) (si : SourceInformation)
    (hsig : si.signal ≠ []) (hspec : si.power_spectrum ≠ [])
    (hloop : si.loop_start_sample = si.signal.length) :
    detect_drum log10 ln exp sqrt si = true := by
  unfold detect_drum
  rw [if_neg (by simp [List.length_eq_zero, hsig, hspec])]
  rw [if_pos (Or.inr hloop)]

/-- C6, witness: a one-sample one-shot source classifies as drum. -/
theorem detect_drum_of_loop_at_end_witness :
    detect_drum (fun _ => 0) (fun _ => 0) (fun _ => 0) (fun _ => 0)
      ⟨[1], [1], 0, 0, 1⟩ = true :=
  detect_drum_of_loop_at_end (fun _ => 0) (fun _ => 0) (fun _ => 0) (fun _ => 0)
    ⟨[1], [1], 0, 0, 1⟩ (by simp) (by simp) rfl

/-! ### `center_note_estimation` (src/source_estimation.rs 127-163) -/

/-- `f32::MIN`, the seed of the arg-max fold: `-(2 - 2^-23) * 2^127`. -/
def f32_min : ℚ := -(2 ^ 128 - 2 ^ 104)

/-- The log power spectrum: `power_spec.iter().map(|p| 10.0 * log10(p))`. -/
def logSpec (log10 : ℚ → ℚ) (power_spec : List ℚ) : List ℚ :=
  power_spec.map (fun p => 10 * log10 p)

/-- One step of the arg-max fold:
`fold((usize::MIN, f32::MIN), |(i_a,a),(i_b,b)| if b > a {(i_b,b)} else {(i_a,a)})`. -/
def amStep (p q : Nat × ℚ) : Nat × ℚ := if q.2 > p.2 then q else p

/-- The `(argmax, max)` fold over the enumerated log spectrum. -/
def argmaxFold (l : List ℚ) : Nat × ℚ := l.enum.foldl amStep (0, f32_min)

/-- The peak loop: indices `i` in `1..(len-1)` whose log power is at least
`0.8` of the maximum and exceeds both neighbours strictly. -/
def pitchPeakList (l : List ℚ) (maxv : ℚ) : List Nat :=
  (List.range' 1 (l.length - 2)).filter (fun i =>
    decide ((8 : ℚ) / 10 * maxv ≤ l.getD i 0) &&
    decide (l.getD (i - 1) 0 < l.getD i 0) &&
    decide (l.getD (i + 1) 0 < l.getD i 0))

/-- The selected pitch bin: the first peak, or the arg-max bin when the peak
list is empty. -/
def centerPitchBin (log10 : ℚ → ℚ) (power_spec : List ℚ) : Nat :=
  match pitchPeakList (logSpec log10 power_spec) (argmaxFold (logSpec log10 power_spec)).2 with
  | [] => (argmaxFold (logSpec log10 power_spec)).1
  | p :: _ => p

/-- `center_note_estimation` from `src/source_estimation.rs`.  On an empty
spectrum the Rust code panics (the peak loop bound `log_spec.len() - 1`
underflows, resp. the loop indexes out of bounds), embedded as
`Except.error`; otherwise the selected bin is converted to Hz
(`bin / (2 * len) * 32000`), to a MIDI note (`12 * log2(hz/440) + 69`), and
clamped to `[0, 127]`. -/
def center_note_estimation (log10 log2 : ℚ → ℚ) (source_info : SourceInformation) :
    Except Unit ℚ :=
  if source_info.power_spectrum.length = 0 then Except.error ()
  else
    Except.ok (min (max
      (12 * log2 ((centerPitchBin log10 source_info.power_spectrum : ℚ)
        / (2 * (source_info.power_spectrum.length : ℚ)) * 32000 / 440) + 69) 0) 127)

/-! ### Claim C5 -/

/-- C5: for every non-empty power spectrum (flat ones included, and for any
behaviour of the `f32` logarithms), `center_note_estimation` returns a value
in `[0, 127]`. -/
theorem center_note_estimation_in_range
    (log10 log2 : ℚ → ℚ) (si : SourceInformation) (h : si.power_spectrum ≠ []) :
    ∃ r, center_note_estimation log10 log2 si = Except.ok r ∧ 0 ≤ r ∧ r ≤ 127 := by
  unfold center_note_estimation
  rw [if_neg (by simpa [List.length_eq_zero] using h)]
  refine ⟨_, rfl, ?_, min_le_right _ _⟩
  exact le_min (le_max_right _ _) (by norm_num)

/-- C5, witness: result of the claim at a concrete flat two-bin spectrum. -/
theorem center_note_estimation_in_range_witness :
    ∃ r, center_note_estimation (fun _ => 0) (fun _ => 0)
        ⟨[], [1, 1], 0, 0, 0⟩ = Except.ok r ∧ 0 ≤ r ∧ r ≤ 127 :=
  center_note_estimation_in_range (fun _ => 0) (fun _ => 0)
    ⟨[], [1, 1], 0, 0, 0⟩ (by simp)

/-! ### Characterisation of the arg-max fold -/

/-- The running maximum tracked by the fold is a `max`-fold of the values. -/
lemma amFoldl_snd (l : List (Nat × ℚ)) :
    ∀ p : Nat × ℚ, (l.foldl amStep p).2 = (l.map Prod.snd).foldl max p.2 := by
  induction l with
  | nil => intro p; rfl
  | cons q t ih =>
    intro p
    simp only [List.foldl_cons, List.map_cons]
    rw [ih]
    congr 1
    unfold amStep
    split_ifs with h
    · exact (max_eq_right h.le).symm
    · exact (max_eq_left (not_lt.1 h)).symm

/-- If no value beats the running maximum, the fold never updates. -/
lemma amFoldl_no_update (l : List (Nat × ℚ)) :
    ∀ p : Nat × ℚ, (∀ x ∈ l.map Prod.snd, x ≤ p.2) → l.foldl amStep p = p := by
  induction l with
  | nil => intro p _; rfl
  | cons q t ih =>
    intro p h
    have hq : q.2 ≤ p.2 := h q.2 (by simp)
    have hstep : amStep p q = p := if_neg (not_lt.2 hq)
    simp only [List.foldl_cons, hstep]
    exact ih p fun x hx => h x (by simp [hx])

/-- If some value strictly beats the initial maximum, the fold returns the
first pair achieving the overall maximum: it is an element of the list, its
value strictly exceeds the initial one, and every earlier value is strictly
below it. -/
lemma amFoldl_first_max (l : List (Nat × ℚ)) :
    ∀ p : Nat × ℚ, (∃ x ∈ l.map Prod.snd, p.2 < x) →
      ∃ j, j < l.length ∧ l.foldl amStep p = l.getD j (0, 0) ∧
        p.2 < (l.foldl amStep p).2 ∧
        ∀ j' < j, (l.getD j' (0, 0)).2 < (l.foldl amStep p).2 := by
  induction l with
  | nil => rintro p ⟨x, hx, _⟩; simp at hx
  | cons q t ih =>
    intro p hex
    simp only [List.foldl_cons]
    by_cases hpq : p.2 < q.2
    · have hstep : amStep p q = q := if_pos hpq
      rw [hstep]
      by_cases hext : ∃ x ∈ t.map Prod.snd, q.2 < x
      · obtain ⟨j, hj, heq, hlt, hearlier⟩ := ih q hext
        refine ⟨j + 1, by simpa using Nat.succ_lt_succ hj, by simpa using heq,
          lt_trans hpq hlt, ?_⟩
        intro j' hj'
        cases j' with
        | zero => simpa using hlt
        | succ i =>
          have : i < j := by omega
          simpa using hearlier i this
      · push_neg at hext
        rw [amFoldl_no_update t q hext]
        exact ⟨0, by simp, by simp, hpq, fun j' h => absurd h (Nat.not_lt_zero _)⟩
    · have hstep : amStep p q = p := if_neg hpq
      rw [hstep]
      have hqle : q.2 ≤ p.2 := not_lt.1 hpq
      have hext : ∃ x ∈ t.map Prod.snd, p.2 < x := by
        obtain ⟨x, hx, hlt⟩ := hex
        rw [List.map_cons, List.mem_cons] at hx
        rcases hx with h | h
        · exact absurd hlt (by rw [h]; exact not_lt.2 hqle)
        · exact ⟨x, h, hlt⟩
      obtain ⟨j, hj, heq, hlt, hearlier⟩ := ih p hext
      refine ⟨j + 1, by simpa using Nat.succ_lt_succ hj, by simpa using heq, hlt, ?_⟩
      intro j' hj'
      cases j' with
      | zero => simpa using lt_of_le_of_lt hqle hlt
      | succ i =>
        have : i < j := by omega
        simpa using hearlier i this

/-- Indexing into `enumFrom`. -/
lemma enumFrom_getD (l : List ℚ) :
    ∀ (k j : Nat), j < l.length → (List.enumFrom k l).getD j (0, 0) = (k + j, l.getD j 0) := by
  induction l with
  | nil => intro k j hj; simp at hj
  | cons a t ih =>
    intro k j hj
    cases j with
    | zero => simp
    | succ i =>
      have hi : i < t.length := by simpa using hj
      simp only [List.enumFrom, List.getD_cons_succ]
      rw [ih (k + 1) i hi]
      rw [Prod.mk.injEq]
      exact ⟨by omega, rfl⟩

/-! ### The estimator as the specification words it (claim C7)

These definitions restate the spec sentence "finds peaks in the log power
spectrum that exceed 0.8x the global maximum and are strict local maxima;
picks the first (lowest-frequency) qualifying peak, or the global maximum
bin if none qualify; converts bin->Hz (`bin/(2N) * sample_rate`) then
Hz->MIDI note (`12 log2(hz/440) + 69`), clamped to [0,127]" verbatim, to be
compared with the source-translated `center_note_estimation`. -/

/-- The global maximum of the log power spectrum. -/
def specMax (l : List ℚ) : ℚ := (l.max?).getD 0

/-- The bin of the global maximum (the lowest such bin). -/
def specArgmax (l : List ℚ) : Nat :=
  ((List.range l.length).find? (fun i => decide (l.getD i 0 = specMax l))).getD 0

/-- A qualifying peak: an interior bin at or above 0.8x the global maximum
with both neighbours strictly smaller. -/
def specQualify (l : List ℚ) (i : Nat) : Bool :=
  decide (1 ≤ i) && decide (i + 1 < l.length) &&
  decide ((8 : ℚ) / 10 * specMax l ≤ l.getD i 0) &&
  decide (l.getD (i - 1) 0 < l.getD i 0) &&
  decide (l.getD (i + 1) 0 < l.getD i 0)

/-- All qualifying peaks in bin order. -/
def specPeakList (l : List ℚ) : List Nat := (List.range l.length).filter (specQualify l)

/-- The spec's selected pitch bin: the first qualifying peak, or the global
maximum bin if none qualify. -/
def specPitchBin (log10 : ℚ → ℚ) (power_spec : List ℚ) : Nat :=
  ((specPeakList (logSpec log10 power_spec)).head?).getD
    (specArgmax (logSpec log10 power_spec))

/-- The spec's estimator: selected bin converted to Hz, then to a MIDI
note, clamped to [0, 127]. -/
def center_note_estimation_specmodel (log10 log2 : ℚ → ℚ) (power_spec : List ℚ) :
    Except Unit ℚ :=
  if power_spec.length = 0 then Except.error ()
  else
    Except.ok (min (max
      (12 * log2 ((specPitchBin log10 power_spec : ℚ)
        / (2 * (power_spec.length : ℚ)) * 32000 / 440) + 69) 0) 127)

/-- `max?` of a non-empty list is the `max`-fold of its tail over its
head. -/
lemma max?_cons_foldl (a : ℚ) (t : List ℚ) : (a :: t).max? = some (t.foldl max a) := rfl

/-- A `max`-fold where the seed dominates returns the seed. -/
lemma foldl_max_of_le (t : List ℚ) :
    ∀ a : ℚ, (∀ x ∈ t, x ≤ a) → t.foldl max a = a := by
  induction t with
  | nil => intro a _; rfl
  | cons b s ih =>
    intro a h
    have hb : b ≤ a := h b (by simp)
    simp only [List.foldl_cons, max_eq_left hb]
    exact ih a fun x hx => h x (by simp [hx])

/-- `find?` over `range' s n` locates the first index satisfying the
predicate. -/
lemma find?_range'_eq_some (p : Nat → Bool) :
    ∀ (n s j : Nat), s ≤ j → j < s + n → p j = true →
      (∀ i, s ≤ i → i < j → p i = false) →
      (List.range' s n).find? p = some j := by
  intro n
  induction n with
  | zero => intro s j h1 h2 _ _; omega
  | succ n ih =>
    intro s j h1 h2 hj hmin
    rw [List.range'_succ, List.find?_cons]
    by_cases hsj : j = s
    · subst hsj
      simp [hj]
    · have hps : p s = false := hmin s le_rfl (by omega)
      simp only [hps]
      exact ih (s + 1) j (by omega) (by omega) hj fun i hi hij => hmin i (by omega) hij

/-- `find?` over `range n` locates the first index satisfying the
predicate. -/
lemma find?_range_eq_some (p : Nat → Bool) (n j : Nat) (hj : j < n) (hpj : p j = true)
    (hmin : ∀ i < j, p i = false) : (List.range n).find? p = some j := by
  rw [List.range_eq_range']
  exact find?_range'_eq_some p n 0 j (Nat.zero_le j) (by omega) hpj
    fun i _ hij => hmin i hij

/-- The fold's running maximum is the spec's global maximum, for non-empty
input whose values are at least the `f32::MIN` seed. -/
lemma argmaxFold_snd_eq (l : List ℚ) (hne : l ≠ []) (h2 : ∀ x ∈ l, f32_min ≤ x) :
    (argmaxFold l).2 = specMax l := by
  cases l with
  | nil => exact absurd rfl hne
  | cons a t =>
    have ha : f32_min ≤ a := h2 a (by simp)
    unfold argmaxFold
    rw [amFoldl_snd, List.enum_map_snd]
    show (a :: t).foldl max f32_min = specMax (a :: t)
    rw [List.foldl_cons, max_eq_right ha]
    unfold specMax
    rw [max?_cons_foldl]
    rfl

/-- The code's arg-max fold computes exactly the spec's (lowest) global
maximum bin and global maximum value, for non-empty input whose values are
at least the `f32::MIN` seed. -/
lemma argmaxFold_eq (l : List ℚ) (hne : l ≠ []) (h2 : ∀ x ∈ l, f32_min ≤ x) :
    argmaxFold l = (specArgmax l, specMax l) := by
  have hsnd := argmaxFold_snd_eq l hne h2
  have hlen : 0 < l.length := List.length_pos.2 hne
  by_cases hex : ∃ x ∈ l, f32_min < x
  · have hex' : ∃ x ∈ l.enum.map Prod.snd, ((0 : Nat), f32_min).2 < x := by
      rw [List.enum_map_snd]; exact hex
    obtain ⟨j, hj, heq, _, hearlier⟩ := amFoldl_first_max l.enum (0, f32_min) hex'
    have hjlen : j < l.length := by simpa [List.enum_length] using hj
    have henum : l.enum = List.enumFrom 0 l := rfl
    have hgetD : l.enum.getD j (0, 0) = (j, l.getD j 0) := by
      rw [henum, enumFrom_getD l 0 j hjlen, Nat.zero_add]
    have hfold : argmaxFold l = (j, l.getD j 0) := by
      unfold argmaxFold; rw [heq, hgetD]
    have hval : l.getD j 0 = specMax l := by
      rw [← hsnd, hfold]
    have hargmax : specArgmax l = j := by
      unfold specArgmax
      rw [find?_range_eq_some _ l.length j hjlen (decide_eq_true hval) ?_]
      · rfl
      · intro i hij
        have hilen : i < l.length := lt_trans hij hjlen
        have hgetDi : l.enum.getD i (0, 0) = (i, l.getD i 0) := by
          rw [henum, enumFrom_getD l 0 i hilen, Nat.zero_add]
        have hlt_i : l.getD i 0 < specMax l := by
          have h := hearlier i hij
          rw [hgetDi] at h
          have hsnd' : (l.enum.foldl amStep (0, f32_min)).2 = specMax l := hsnd
          rw [hsnd'] at h
          exact h
        exact decide_eq_false (ne_of_lt hlt_i)
    rw [hfold, hargmax, hval]
  · push_neg at hex
    have hall : ∀ x ∈ l.enum.map Prod.snd, x ≤ ((0 : Nat), f32_min).2 := by
      rw [List.enum_map_snd]; exact hex
    have hfold : argmaxFold l = (0, f32_min) := amFoldl_no_update _ _ hall
    have hmax0 : specMax l = f32_min := by rw [← hsnd, hfold]
    have hpred0 : decide (l.getD 0 0 = specMax l) = true := by
      cases l with
      | nil => exact absurd rfl hne
      | cons a t =>
        have ha : a = f32_min := le_antisymm (hex a (by simp)) (h2 a (by simp))
        rw [List.getD_cons_zero, hmax0, ha]
        exact decide_eq_true rfl
    have hargmax : specArgmax l = 0 := by
      unfold specArgmax
      rw [find?_range_eq_some _ l.length 0 hlen hpred0
        (fun i hi => absurd hi (Nat.not_lt_zero _))]
      rfl
    rw [hfold, hargmax, hmax0]

/-- The code's peak loop (interior indices, run against the fold's maximum)
finds exactly the spec's qualifying peaks. -/
lemma peakList_eq (l : List ℚ) (hne : l ≠ []) :
    pitchPeakList l (specMax l) = specPeakList l := by
  have hlen : 0 < l.length := List.length_pos.2 hne
  have hq0 : specQualify l 0 = false := by simp [specQualify]
  have hR : specPeakList l = (List.range' 1 (l.length - 2)).filter (specQualify l) := by
    unfold specPeakList
    obtain ⟨n, hn⟩ : ∃ n, l.length = n + 1 := ⟨l.length - 1, by omega⟩
    rw [hn, List.range_eq_range', List.range'_succ, List.filter_cons]
    simp only [hq0, if_false]
    rcases Nat.lt_or_ge l.length 2 with hsmall | hbig
    · have hn0 : n = 0 := by omega
      subst hn0
      rfl
    · have hm : n = (l.length - 2) + 1 := by omega
      rw [hm, List.range'_concat]
      rw [List.filter_append]
      have hlast : specQualify l (1 + 1 * (l.length - 2)) = false := by
        have hidx : 1 + 1 * (l.length - 2) = l.length - 1 := by omega
        rw [hidx]
        unfold specQualify
        have hnot : ¬(l.length - 1 + 1 < l.length) := by omega
        simp [hnot]
      rw [List.filter_cons, hlast]
      simp
  rw [hR]
  apply List.filter_congr
  intro i hi
  obtain ⟨hi1, hi2⟩ := List.mem_range'_1.1 hi
  have hib : i + 1 < l.length := by omega
  unfold specQualify
  simp [hi1, hib]

/-- The code's selected pitch bin is the spec's selected pitch bin. -/
lemma centerPitchBin_eq (log10 : ℚ → ℚ) (power_spec : List ℚ) (h1 : power_spec ≠ [])
    (h2 : ∀ x ∈ logSpec log10 power_spec, f32_min ≤ x) :
    centerPitchBin log10 power_spec = specPitchBin log10 power_spec := by
  have hls : logSpec log10 power_spec ≠ [] := by
    simp [logSpec, h1]
  have ham := argmaxFold_eq (logSpec log10 power_spec) hls h2
  unfold centerPitchBin specPitchBin
  rw [ham]
  show (match pitchPeakList (logSpec log10 power_spec) (specMax (logSpec log10 power_spec)) with
      | [] => specArgmax (logSpec log10 power_spec)
      | p :: _ => p)
    = ((specPeakList (logSpec log10 power_spec)).head?).getD
        (specArgmax (logSpec log10 power_spec))
  rw [peakList_eq _ hls]
  cases specPeakList (logSpec log10 power_spec) with
  | nil => rfl
  | cons p t => rfl

/-! ### Claim C7 -/

/-- C7: `center_note_estimation` computes exactly what the spec describes —
among log-spectrum bins at or above 0.8x the global maximum that are strict
local maxima it picks the first, else the global-maximum bin, then converts
`bin -> bin/(2N) * 32000 Hz -> 12*log2(hz/440) + 69`, clamped to [0,127].
Stated as equality with the spec-worded `center_note_estimation_specmodel`,
for non-empty spectra whose log values are at least `f32::MIN` (true of
every finite `f32` log spectrum). -/
theorem center_note_estimation_matches_description
    (log10 log2 : ℚ → ℚ) (si : SourceInformation)
    (h1 : si.power_spectrum ≠ [])
    (h2 : ∀ p ∈ si.power_spectrum, f32_min ≤ 10 * log10 p) :
    center_note_estimation log10 log2 si
      = center_note_estimation_specmodel log10 log2 si.power_spectrum := by
  have h2' : ∀ x ∈ logSpec log10 si.power_spectrum, f32_min ≤ x := by
    intro x hx
    obtain ⟨p, hp, rfl⟩ := List.mem_map.1 hx
    exact h2 p hp
  unfold center_note_estimation center_note_estimation_specmodel
  rw [centerPitchBin_eq log10 si.power_spectrum h1 h2']

/-- C7, witness: the description matches on the spectrum `[1, 2, 1]` with
zero log primitives. -/
theorem center_note_estimation_matches_description_witness :
    center_note_estimation (fun _ => 0) (fun _ => 0) ⟨[], [1, 2, 1], 0, 0, 0⟩
      = center_note_estimation_specmodel (fun _ => 0) (fun _ => 0) [1, 2, 1] :=
  center_note_estimation_matches_description (fun _ => 0) (fun _ => 0)
    ⟨[], [1, 2, 1], 0, 0, 0⟩ (by simp)
    (by intro p _; show f32_min ≤ 10 * 0; unfold f32_min; norm_num)

/-! ## App message handlers (`App::update`, src/lib.rs)

The `App` fields touched by the stop handler, with the externally defined
emulator (`spc700::spc::SPC`) kept abstract: `Snap` is the immutable
memory snapshot held in `spc_file`, `EmuP`/`EmuM` the two emulator
specialisations (`SPC<SDSP>` / `SPC<MIDIDSP>`), and the `SPC::new`
constructors are arbitrary functions of the snapshot. -/

/-- The fields of `App` that `Message::ReceivedPlayStopRequest` touches. -/
structure AppPlaybackState (Snap EmuP EmuM : Type) where
  spc_file : Option Snap
  pcm_spc : Option EmuP
  midi_spc : Option EmuM
  stream_is_playing : Bool
  stream_played_samples : Nat
  midi_output_bytes : Nat

/-- `App::stream_play_stop`: clears the playing flag and drops the stream
(it does not touch the emulators or the counters). -/
def stream_play_stop {Snap EmuP EmuM : Type} (app : AppPlaybackState Snap EmuP EmuM) :
    AppPlaybackState Snap EmuP EmuM :=
  { app with stream_is_playing := false }

/-- The `Message::ReceivedPlayStopRequest` arm of `App::update`: stop the
stream if playing, re-construct both emulators from the snapshot when a
file is loaded, and zero both counters. -/
def handleStopRequest {Snap EmuP EmuM : Type}
    (spcNewPcm : Snap → EmuP) (spcNewMidi : Snap → EmuM)
    (app : AppPlaybackState Snap EmuP EmuM) : AppPlaybackState Snap EmuP EmuM :=
  let app := if app.stream_is_playing then stream_play_stop app else app
  let app :=
    match app.spc_file with
    | some snap =>
        { app with
            pcm_spc := some (spcNewPcm snap)
            midi_spc := some (spcNewMidi snap) }
    | none => app
  { app with stream_played_samples := 0, midi_output_bytes := 0 }

/-! ### Claim C9 -/

/-- C9: after a stop request (with a file loaded), both long-lived emulator
instances equal freshly constructed emulators seeded from the immutable
snapshot — whatever voice/envelope/RAM state the previous ones held is
gone, since `SPC::new` is a function of the snapshot alone — and the
played-samples and protocol-output-bytes counters are zero. -/
theorem stop_request_resets_emulators
    {Snap EmuP EmuM : Type} (spcNewPcm : Snap → EmuP) (spcNewMidi : Snap → EmuM)
    (app : AppPlaybackState Snap EmuP EmuM) (snap : Snap)
    (hfile : app.spc_file = some snap) :
    (handleStopRequest spcNewPcm spcNewMidi app).pcm_spc = some (spcNewPcm snap) ∧
      (handleStopRequest spcNewPcm spcNewMidi app).midi_spc = some (spcNewMidi snap) ∧
      (handleStopRequest spcNewPcm spcNewMidi app).stream_played_samples = 0 ∧
      (handleStopRequest spcNewPcm spcNewMidi app).midi_output_bytes = 0 := by
  unfold handleStopRequest stream_play_stop
  cases hplay : app.stream_is_playing <;> simp [hfile]

/-- C9, witness: a concrete stopped session (snapshot `7`, stale emulator
states `1`/`2`, 500 played samples, 300 protocol bytes) is fully reset. -/
theorem stop_request_resets_emulators_witness :
    (handleStopRequest (fun n => n + 1) (fun n => n + 2)
        ⟨some 7, some 1, some 2, true, 500, 300⟩).pcm_spc = some 8 ∧
      (handleStopRequest (fun n => n + 1) (fun n => n + 2)
        ⟨some 7, some 1, some 2, true, 500, 300⟩).midi_spc = some 9 ∧
      (handleStopRequest (fun n => n + 1) (fun n => n + 2)
        ⟨some 7, some 1, some 2, true, 500, 300⟩).stream_played_samples = 0 ∧
      (handleStopRequest (fun n => n + 1) (fun n => n + 2)
        ⟨some 7, some 1, some 2, true, 500, 300⟩).midi_output_bytes = 0 :=
  @stop_request_resets_emulators Nat Nat Nat (fun n => n + 1) (fun n => n + 2)
    ⟨some 7, some 1, some 2, true, 500, 300⟩ 7 rfl

/-! ## JSON parameter loading (`App::update`, `LoadedFile::JSONFile` arm,
src/lib.rs 401-417) -/

/-- The two shared maps the JSON arm touches: the global
`MIDIOutputConfigure` and the per-source `SourceParameter` map (keys are
`u8` source numbers). -/
structure AppParameterMaps (Param Config : Type) where
  midi_output_configure : Config
  source_parameter : Nat → Option Param

/-- `ExportInformation` as deserialised from the JSON file; its
`source_parameter` is iterated as a list of (source number, parameter)
pairs. -/
structure ExportInformation (Param Config : Type) where
  tool_information : String
  midi_output_configure : Config
  source_parameter : List (Nat × Param)

/-- The `LoadedFile::JSONFile` success path: replace the configure
wholesale (`*config = json.midi_output_configure`), then insert each of the
file's per-source records into the existing map (the code deliberately does
not clear the map first: "丸ごと上書きすると設定済みのkeyを消してしまうので追記"). -/
def handleJSONLoaded {Param Config : Type} (app : AppParameterMaps Param Config)
    (json : ExportInformation Param Config) : AppParameterMaps Param Config :=
  { midi_output_configure := json.midi_output_configure
    source_parameter :=
      json.source_parameter.foldl (fun m kv => insertFn m kv.1 kv.2) app.source_parameter }

/-- A fold of inserts leaves keys outside the inserted list unchanged. -/
lemma foldl_insertFn_not_mem {α : Type} (l : List (Nat × α)) :
    ∀ (m : Nat → Option α) (k : Nat), k ∉ l.map Prod.fst →
      (l.foldl (fun m kv => insertFn m kv.1 kv.2) m) k = m k := by
  induction l with
  | nil => intro m k _; rfl
  | cons kv t ih =>
    intro m k hk
    rw [List.map_cons, List.mem_cons] at hk
    push_neg at hk
    simp only [List.foldl_cons]
    rw [ih _ k hk.2]
    unfold insertFn
    rw [if_neg hk.1]

/-- A fold of inserts over pairwise-distinct keys stores each pair. -/
lemma foldl_insertFn_mem {α : Type} (l : List (Nat × α)) :
    ∀ (m : Nat → Option α) (k : Nat) (v : α), (k, v) ∈ l →
      (l.map Prod.fst).Nodup →
      (l.foldl (fun m kv => insertFn m kv.1 kv.2) m) k = some v := by
  induction l with
  | nil => intro m k v hmem _; exact absurd hmem (List.not_mem_nil _)
  | cons kv t ih =>
    intro m k v hmem hnd
    rw [List.map_cons, List.nodup_cons] at hnd
    simp only [List.foldl_cons]
    rcases List.mem_cons.1 hmem with h | h
    · have hk : k ∉ t.map Prod.fst := by
        rw [← h] at hnd
        simpa using hnd.1
      rw [foldl_insertFn_not_mem t _ k hk]
      unfold insertFn
      rw [← h]
      simp
    · exact ih _ k v h hnd.2

/-! ### Claim C10 -/

/-- C10: loading a JSON parameter file merges rather than replaces the
per-voice parameter map — every source id present in the file (file keys
are distinct, coming from a `BTreeMap`) ends up with the file's record,
every source id absent from the file keeps its previously stored record —
while the global `MIDIOutputConfigure` is replaced wholesale. -/
theorem json_load_merges_parameters
    {Param Config : Type} (app : AppParameterMaps Param Config)
    (json : ExportInformation Param Config) (k : Nat) :
    (handleJSONLoaded app json).midi_output_configure = json.midi_output_configure ∧
      (k ∉ json.source_parameter.map Prod.fst →
        (handleJSONLoaded app json).source_parameter k = app.source_parameter k) ∧
      (∀ v, (k, v) ∈ json.source_parameter →
        (json.source_parameter.map Prod.fst).Nodup →
        (handleJSONLoaded app json).source_parameter k = some v) := by
  refine ⟨rfl, ?_, ?_⟩
  · intro hk
    exact foldl_insertFn_not_mem _ _ _ hk
  · intro v hv hnd
    exact foldl_insertFn_mem _ _ _ _ hv hnd

/-- C10, witness: loading a file holding config `3` and the single record
`(1, 5)` over a map holding `7` everywhere replaces the config, overwrites
source 1 with `5` and leaves source 2 at `7`. -/
theorem json_load_merges_parameters_witness :
    (@handleJSONLoaded Nat Nat ⟨0, fun _ => some 7⟩
        ⟨"t", 3, [(1, 5)]⟩).midi_output_configure = 3 ∧
      (@handleJSONLoaded Nat Nat ⟨0, fun _ => some 7⟩
        ⟨"t", 3, [(1, 5)]⟩).source_parameter 2 = some 7 ∧
      (@handleJSONLoaded Nat Nat ⟨0, fun _ => some 7⟩
        ⟨"t", 3, [(1, 5)]⟩).source_parameter 1 = some 5 := by
  refine ⟨(json_load_merges_parameters ⟨0, fun _ => some 7⟩ ⟨"t", 3, [(1, 5)]⟩ 2).1, ?_, ?_⟩
  · exact (json_load_merges_parameters ⟨0, fun _ => some 7⟩ ⟨"t", 3, [(1, 5)]⟩ 2).2.1
      (by decide)
  · exact (json_load_merges_parameters ⟨0, fun _ => some 7⟩ ⟨"t", 3, [(1, 5)]⟩ 1).2.2 5
      (by decide) (by decide)

end Spc2Midi
